import Mathlib

set_option linter.unusedVariables false

/-!
Shallow embedding of the 2D Ising model Monte Carlo simulator
(`Rectangular2D.py`) and its parallel temperature sweep
(`MagnetizationDistribution.py`).

Modelling conventions:
* a numpy lattice is a `List (List ℤ)` of spins;
* Python floats are modelled by `ℚ` where the program only performs
  field arithmetic and comparisons, and by `ℝ` where `math.exp` is
  involved (the uniform draws of `random.random()` are `ℝ` inputs);
* the random sources (`np.random.choice`, `random.randint`,
  `random.random`) are explicit input streams, indexed by draw position;
* the one exception the program can raise — numpy's `ValueError` for a
  probability outside [0, 1] at initialization — is modelled with
  `Except String`, threaded through the run; no other operation raises.
  In particular `diffEnergy` is a numpy integer scalar, so
  `-diffEnergy / temp` with `temp = 0` does not raise: it warns and
  yields `-inf` (the branch has `diffEnergy > 0`), `math.exp(-inf)` is
  `0.0`, and the flip is rejected.  Likewise `x / float(0)` in the
  magnetization normalisation warns and yields `nan` (and `nan == 1` is
  `False`); `nan` has no `ℚ` counterpart, so on the `rows * cols = 0`
  fringe the model returns the `ℚ` value `0/0 = 0` — the control flow
  (`nan == 1` false, no exception) is preserved, and no theorem below
  relies on the returned scalar there.
-/

namespace Rectangular2D

/-- A rectangular spin lattice: a list of rows, each a list of spins. -/
abbrev Lattice := List (List ℤ)

/-- Reading `lattice[row][col]`.  All reads performed by the program are
in range (the indices are reduced modulo the shape first), so the default
value `0` is never produced on the program's own paths. -/
def getSpin (lattice : Lattice) (row col : ℕ) : ℤ :=
  (lattice.getD row []).getD col 0

/-- Writing `lattice[row][col] = v` (an out-of-range write is a no-op,
matching `List.set`; the program only writes in range). -/
def setSpin (lattice : Lattice) (row col : ℕ) (v : ℤ) : Lattice :=
  lattice.set row ((lattice.getD row []).set col v)

/-- Embedding of `initialize(rows, cols, prob)` (Rectangular2D.py lines
11-26): `np.random.choice([1, -1], size=(rows, cols), p=[prob, 1-prob])`.
Cell `(r, c)` consumes draw `r * cols + c` of the uniform stream `rand`
and becomes `+1` when the draw falls below `prob`, else `-1`.  numpy
raises `ValueError` when the probability vector `[prob, 1-prob]` has a
negative entry, i.e. exactly when `prob` lies outside `[0, 1]`; negative
`rows`/`cols` (also a numpy `ValueError`) are unrepresentable here since
the dimensions are `ℕ`. -/
def initializeLattice (rows cols : ℕ) (prob : ℚ) (rand : ℕ → ℚ) :
    Except String Lattice :=
  if prob < 0 ∨ 1 < prob then
    .error "ValueError"
  else
    .ok ((List.range rows).map fun r =>
      (List.range cols).map fun c => if rand (r * cols + c) < prob then 1 else -1)

/-- Embedding of `magnetization(lattice)` (lines 29-34): `np.sum(lattice)`. -/
def magnetization (lattice : Lattice) : ℤ :=
  (lattice.map List.sum).sum

/-- Embedding of `checkEnergyDiff(row, col, lattice, temp, J=1, B=0, mu=1)`
(lines 90-120).  `temp` is accepted but unused, exactly as in the source.
The neighbour indices are wrapped with the source's expressions
`(row + rows - 1) % rows`, `(col + 1) % cols`, `(row + 1) % rows`,
`(col + cols - 1) % cols`. -/
def checkEnergyDiff (row col : ℕ) (lattice : Lattice) (temp : ℚ)
    (J : ℚ := 1) (B : ℚ := 0) (mu : ℚ := 1) : ℚ :=
  let rows := lattice.length
  let cols := (lattice.getD 0 []).length
  2 * J * (getSpin lattice row col : ℚ) *
      ((getSpin lattice ((row + rows - 1) % rows) col : ℚ)
        + (getSpin lattice row ((col + 1) % cols) : ℚ)
        + (getSpin lattice ((row + 1) % rows) col : ℚ)
        + (getSpin lattice row ((col + cols - 1) % cols) : ℚ))
    + 2 * B * mu * (getSpin lattice row col : ℚ)

/-- Embedding of `checkFlip(row, col, lattice, temp, J=1, B=0, mu=1)`
(lines 37-87).  `u` is the value of the `random.random()` draw consumed
in the probabilistic branch.  Note that the source computes
`diffEnergy = checkEnergyDiff(row, col, lattice, temp)` WITHOUT passing
`J`, `B`, `mu` on, so the energy difference always uses the defaults
`J=1, B=0, mu=1`; the embedding reproduces this faithfully via Lean's
default arguments.  `diffEnergy` is a numpy integer scalar, so when
`temp = 0` the division `-diffEnergy / temp` (reached only with
`diffEnergy > 0`) does not raise: numpy warns and yields `-inf`, and
`BoltzFactor = math.exp(-inf) = 0.0`, so the comparison is against `0`
and the flip is rejected (`random.random() ≥ 0`).  The function itself
never raises; the `Except` wrapper only threads initialization's
`ValueError` through the monadic run. -/
noncomputable def checkFlip (row col : ℕ) (lattice : Lattice) (temp : ℚ)
    (J : ℚ := 1) (B : ℚ := 0) (mu : ℚ := 1) (u : ℝ) : Except String Lattice :=
  let diffEnergy := checkEnergyDiff row col lattice temp
  if diffEnergy ≤ 0 then
    .ok (setSpin lattice row col (-1 * getSpin lattice row col))
  else
    let BoltzFactor : ℝ :=
      if temp = 0 then 0 else Real.exp ((-diffEnergy / temp : ℚ) : ℝ)
    if u < BoltzFactor then
      .ok (setSpin lattice row col (-1 * getSpin lattice row col))
    else
      .ok lattice

/-- One time step of `simulate` (lines 151-162): `rows * cols` successive
single-site flip attempts.  Attempt `i` of step `t` consumes draw
`t * (rows * cols) + i` of the site stream (`random.randint` pairs) and
of the acceptance stream (`random.random`), so the same site may be
revisited or skipped within one step (sampling with replacement). -/
noncomputable def timeStep (rows cols : ℕ) (kT J B mu : ℚ)
    (siteRand : ℕ → ℕ × ℕ) (acceptRand : ℕ → ℝ)
    (lattice : Lattice) (t : ℕ) : Except String Lattice :=
  (List.range (rows * cols)).foldlM
    (fun L i =>
      let k := t * (rows * cols) + i
      checkFlip (siteRand k).1 (siteRand k).2 L kT J B mu (acceptRand k))
    lattice

/-- The source's per-step termination test (line 166-170):
`abs(magnetization(lattice)) / float(rows * cols) == 1`.  For
`rows * cols = 0` the Python value is numpy `nan` (a warning, not an
exception) and `nan == 1` is `False`; the `ℚ` value `0/0 = 0 ≠ 1` gives
the same `False` outcome. -/
def saturatedQ (rows cols : ℕ) (lattice : Lattice) : Prop :=
  |(magnetization lattice : ℚ)| / ((rows * cols : ℕ) : ℚ) = 1

instance (rows cols : ℕ) (lattice : Lattice) :
    Decidable (saturatedQ rows cols lattice) := by
  unfold saturatedQ; infer_instance

/-- The time loop of `simulate` (lines 151-174): `for t in range(0, tmax)`
with the early `break` once the absorbing state is reached.  `t` is the
current step index, `fuel` the number of loop iterations left; the
returned `ℕ` is the step index after the loop. -/
noncomputable def simLoop (rows cols : ℕ) (kT J B mu : ℚ)
    (siteRand : ℕ → ℕ × ℕ) (acceptRand : ℕ → ℝ) :
    Lattice → ℕ → ℕ → Except String (Lattice × ℕ)
  | lattice, t, 0 => .ok (lattice, t)
  | lattice, t, fuel + 1 => do
    let L ← timeStep rows cols kT J B mu siteRand acceptRand lattice t
    if saturatedQ rows cols L then .ok (L, t + 1)
    else simLoop rows cols kT J B mu siteRand acceptRand L (t + 1) fuel

/-- Embedding of `simulate(rows, cols, prob, kT, J, B, mu, tmax)`
(lines 122-180): initialize the lattice, run the time loop, and return
the signed normalized magnetization together with the final lattice.
The only exception a run can raise is initialization's `ValueError` for
a probability outside [0, 1]; the normalisation at line 178 warns and
yields `nan` when `rows * cols = 0` (the `ℚ` model returns `0/0 = 0`
there; no theorem relies on that scalar). -/
noncomputable def simulate (rows cols : ℕ) (prob kT J B mu : ℚ) (tmax : ℕ)
    (initRand : ℕ → ℚ) (siteRand : ℕ → ℕ × ℕ) (acceptRand : ℕ → ℝ) :
    Except String (ℚ × Lattice) := do
  let lattice ← initializeLattice rows cols prob initRand
  let r ← simLoop rows cols kT J B mu siteRand acceptRand lattice 0 tmax
  .ok ((magnetization r.1 : ℚ) / ((rows * cols : ℕ) : ℚ), r.1)

/-- Step iteration helper for stating properties of the time loop:
`stepsFrom L t n` performs `n` consecutive time steps starting from
lattice `L` at step index `t` (no termination test). -/
noncomputable def stepsFrom (rows cols : ℕ) (kT J B mu : ℚ)
    (siteRand : ℕ → ℕ × ℕ) (acceptRand : ℕ → ℝ) :
    Lattice → ℕ → ℕ → Except String Lattice
  | L, _, 0 => .ok L
  | L, t, n + 1 => do
    let M ← timeStep rows cols kT J B mu siteRand acceptRand L t
    stepsFrom rows cols kT J B mu siteRand acceptRand M (t + 1) n

/-- Shape predicate: the lattice has `rows` rows, each of length `cols`. -/
def wellFormed (rows cols : ℕ) (lattice : Lattice) : Prop :=
  lattice.length = rows ∧ ∀ r ∈ lattice, r.length = cols

/-- Every cell is a spin, `+1` or `-1`. -/
def spinsValid (lattice : Lattice) : Prop :=
  ∀ r ∈ lattice, ∀ x ∈ r, x = 1 ∨ x = -1

/-- The in-place flip performed by `checkFlip`
(`lattice[row][col] = -1 * lattice[row][col]`, lines 65 and 79). -/
def flipSpin (lattice : Lattice) (row col : ℕ) : Lattice :=
  setSpin lattice row col (-1 * getSpin lattice row col)

/-- The spec's wording of the wrapped predecessor index: `i - 1` reduced
modulo `n` in integer arithmetic (periodic boundary conditions). -/
def wrapPred (i n : ℕ) : ℕ :=
  (((i : ℤ) - 1) % (n : ℤ)).toNat

/-- The spec's wording of the wrapped successor index: `i + 1` reduced
modulo `n` in integer arithmetic (periodic boundary conditions). -/
def wrapSucc (i n : ℕ) : ℕ :=
  (((i : ℤ) + 1) % (n : ℤ)).toNat

end Rectangular2D

namespace MagnetizationDistribution

open Rectangular2D

/-- The parameter tuple `(rows, cols, prob, kT, J, B, mu, tmax)` built by
the sweep driver (MagnetizationDistribution.py line 98). -/
structure RunArgs where
  rows : ℕ
  cols : ℕ
  prob : ℚ
  kT : ℚ
  J : ℚ
  B : ℚ
  mu : ℚ
  tmax : ℕ
  deriving Repr, DecidableEq

/-- Embedding of `simulateParallel(args)` (lines 14-53): unpack the tuple,
run `simulate`, and return the magnetization (component 0 of its result).
The per-run random streams are explicit inputs; an exception raised by
`simulate` propagates out of the worker. -/
noncomputable def simulateParallel (args : RunArgs)
    (initRand : ℕ → ℚ) (siteRand : ℕ → ℕ × ℕ) (acceptRand : ℕ → ℝ) :
    Except String ℚ := do
  let r ← simulate args.rows args.cols args.prob args.kT args.J args.B args.mu
      args.tmax initRand siteRand acceptRand
  pure r.1

/-- Model of `workers.map_async(f, tasks); result.get()` (lines 102 and
133): `AsyncResult.get` returns the list of per-task results in task
order when every task succeeded, and re-raises a failed task's exception
otherwise (here, deterministically, the first failure in task order); the
successful runs' results are not returned in that case. -/
def mapAsyncGet {α β : Type} (f : α → Except String β) (tasks : List α) :
    Except String (List β) :=
  tasks.mapM f

/-- Embedding of the run-list construction of the sweep driver (lines
90-98): `kT += [kTs[kTidx]] * samples` for each temperature in order,
then `args = [(rows, cols, prob, temp, J, B, mu, tmax) for temp in kT]`. -/
def buildRunList (kTs : List ℚ) (samples : ℕ) (rows cols : ℕ)
    (prob J B mu : ℚ) (tmax : ℕ) : List RunArgs :=
  let kT := kTs.foldl (fun acc t => acc ++ List.replicate samples t) []
  kT.map fun temp => ⟨rows, cols, prob, temp, J, B, mu, tmax⟩

end MagnetizationDistribution

/-! Helper lemmas about list reads and writes. -/

namespace Rectangular2D

theorem getD_set_self {α : Type} {l : List α} {i : ℕ} {a d : α}
    (h : i < l.length) : (l.set i a).getD i d = a := by
  rw [List.getD_eq_getElem?_getD, List.getElem?_set_self h]
  rfl

theorem getD_set_ne {α : Type} {l : List α} {i j : ℕ} {a d : α}
    (h : i ≠ j) : (l.set i a).getD j d = l.getD j d := by
  rw [List.getD_eq_getElem?_getD, List.getElem?_set_ne h,
    ← List.getD_eq_getElem?_getD]

theorem set_getD_self {α : Type} {l : List α} {i : ℕ} {d : α}
    (h : i < l.length) : l.set i (l.getD i d) = l := by
  apply List.ext_getElem?
  intro n
  rw [List.getElem?_set]
  split
  · next heq =>
    subst heq
    simp [h, List.getElem?_eq_getElem h, List.getD_eq_getElem?_getD]
  · rfl

theorem length_setSpin (lattice : Lattice) (row col : ℕ) (v : ℤ) :
    (setSpin lattice row col v).length = lattice.length := by
  unfold setSpin
  exact List.length_set ..

theorem getSpin_setSpin_self {lattice : Lattice} {row col : ℕ} {v : ℤ}
    (hrow : row < lattice.length)
    (hcol : col < (lattice.getD row []).length) :
    getSpin (setSpin lattice row col v) row col = v := by
  unfold getSpin setSpin
  rw [getD_set_self hrow, getD_set_self hcol]

theorem getSpin_setSpin_ne {lattice : Lattice} {row col r c : ℕ} {v : ℤ}
    (h : ¬(r = row ∧ c = col)) :
    getSpin (setSpin lattice row col v) r c = getSpin lattice r c := by
  unfold getSpin setSpin
  by_cases hr : row = r
  · subst hr
    have hc : col ≠ c := by
      intro hc; exact h ⟨rfl, hc.symm⟩
    by_cases hlt : row < lattice.length
    · rw [getD_set_self hlt, getD_set_ne hc]
    · rw [List.set_eq_of_length_le (Nat.le_of_not_lt hlt)]
  · rw [getD_set_ne hr]

theorem getD_mem {α : Type} {l : List α} {i : ℕ} {d : α}
    (h : i < l.length) : l.getD i d ∈ l := by
  rw [List.getD_eq_getElem?_getD, List.getElem?_eq_getElem h]
  exact List.getElem_mem h

theorem setSpin_out_of_range_row {lattice : Lattice} {row : ℕ} (col : ℕ)
    (v : ℤ) (h : lattice.length ≤ row) : setSpin lattice row col v = lattice := by
  unfold setSpin
  exact List.set_eq_of_length_le h

theorem setSpin_out_of_range_col {lattice : Lattice} {row col : ℕ}
    (v : ℤ) (hrow : row < lattice.length)
    (h : (lattice.getD row []).length ≤ col) :
    setSpin lattice row col v = lattice := by
  unfold setSpin
  rw [List.set_eq_of_length_le h]
  exact set_getD_self hrow

theorem wellFormed_setSpin {rows cols : ℕ} {lattice : Lattice}
    (hwf : wellFormed rows cols lattice) (row col : ℕ) (v : ℤ) :
    wellFormed rows cols (setSpin lattice row col v) := by
  by_cases hlt : row < lattice.length
  · obtain ⟨hlen, hrows⟩ := hwf
    refine ⟨by rw [length_setSpin]; exact hlen, ?_⟩
    intro r hr
    rcases List.mem_or_eq_of_mem_set hr with hmem | heq
    · exact hrows r hmem
    · subst heq
      rw [List.length_set]
      exact hrows _ (getD_mem hlt)
  · rw [setSpin_out_of_range_row col v (Nat.le_of_not_lt hlt)]
    exact hwf

theorem spinsValid_flipSpin {lattice : Lattice}
    (hs : spinsValid lattice) (row col : ℕ) :
    spinsValid (flipSpin lattice row col) := by
  by_cases hlt : row < lattice.length
  · by_cases hclt : col < (lattice.getD row []).length
    · unfold flipSpin setSpin
      intro r hr x hx
      rcases List.mem_or_eq_of_mem_set hr with hmem | heq
      · exact hs r hmem x hx
      · subst heq
        rcases List.mem_or_eq_of_mem_set hx with hmem' | heq'
        · exact hs _ (getD_mem hlt) x hmem'
        · subst heq'
          have hspin : getSpin lattice row col ∈ lattice.getD row [] :=
            getD_mem hclt
          rcases hs _ (getD_mem hlt) _ hspin with h1 | h1 <;>
            rw [h1] <;> simp
    · unfold flipSpin
      rw [setSpin_out_of_range_col _ hlt (Nat.le_of_not_lt hclt)]
      exact hs
  · unfold flipSpin
    rw [setSpin_out_of_range_row col _ (Nat.le_of_not_lt hlt)]
    exact hs

end Rectangular2D

/-! Behaviour of a single flip attempt. -/

namespace Rectangular2D

theorem checkFlip_ok_cases (row col : ℕ) (lattice : Lattice)
    (temp J B mu : ℚ) (u : ℝ) :
    checkFlip row col lattice temp J B mu u = .ok (flipSpin lattice row col) ∨
    checkFlip row col lattice temp J B mu u = .ok lattice := by
  simp only [checkFlip, flipSpin]
  by_cases h1 : checkEnergyDiff row col lattice temp ≤ 0
  · left; rw [if_pos h1]
  · rw [if_neg h1]
    by_cases h2 : u < (if temp = 0 then (0 : ℝ)
        else Real.exp ((-checkEnergyDiff row col lattice temp / temp : ℚ) : ℝ))
    · left; rw [if_pos h2]
    · right; rw [if_neg h2]

theorem wellFormed_flipSpin {rows cols : ℕ} {lattice : Lattice}
    (hwf : wellFormed rows cols lattice) (row col : ℕ) :
    wellFormed rows cols (flipSpin lattice row col) := by
  unfold flipSpin
  exact wellFormed_setSpin hwf row col _

theorem checkFlip_inv {rows cols : ℕ} (row col : ℕ) (lattice : Lattice)
    (temp J B mu : ℚ) (u : ℝ)
    (h : wellFormed rows cols lattice ∧ spinsValid lattice) :
    ∃ L', checkFlip row col lattice temp J B mu u = .ok L' ∧
      wellFormed rows cols L' ∧ spinsValid L' := by
  rcases checkFlip_ok_cases row col lattice temp J B mu u with h1 | h1
  · exact ⟨_, h1, wellFormed_flipSpin h.1 row col, spinsValid_flipSpin h.2 row col⟩
  · exact ⟨lattice, h1, h⟩

theorem foldlM_except_inv {α σ : Type} (P : σ → Prop)
    (f : σ → α → Except String σ)
    (hf : ∀ s a, P s → ∃ s', f s a = .ok s' ∧ P s') (l : List α) :
    ∀ s, P s → ∃ s', l.foldlM f s = .ok s' ∧ P s' := by
  induction l with
  | nil => exact fun s hs => ⟨s, rfl, hs⟩
  | cons a l ih =>
    intro s hs
    obtain ⟨s1, h1, hp1⟩ := hf s a hs
    obtain ⟨s', h', hp'⟩ := ih s1 hp1
    refine ⟨s', ?_, hp'⟩
    rw [List.foldlM_cons, h1]
    exact h'

theorem timeStep_inv {rows cols : ℕ} (kT J B mu : ℚ)
    (siteRand : ℕ → ℕ × ℕ) (acceptRand : ℕ → ℝ) (lattice : Lattice) (t : ℕ)
    (h : wellFormed rows cols lattice ∧ spinsValid lattice) :
    ∃ L', timeStep rows cols kT J B mu siteRand acceptRand lattice t = .ok L' ∧
      wellFormed rows cols L' ∧ spinsValid L' := by
  unfold timeStep
  exact foldlM_except_inv _ _
    (fun L i hL => checkFlip_inv _ _ L kT J B mu _ hL) _ lattice h

theorem stepsFrom_inv {rows cols : ℕ} (kT J B mu : ℚ)
    (siteRand : ℕ → ℕ × ℕ) (acceptRand : ℕ → ℝ) :
    ∀ (n : ℕ) (lattice : Lattice) (t : ℕ),
      wellFormed rows cols lattice ∧ spinsValid lattice →
      ∃ L', stepsFrom rows cols kT J B mu siteRand acceptRand lattice t n = .ok L' ∧
        wellFormed rows cols L' ∧ spinsValid L' := by
  intro n
  induction n with
  | zero => exact fun lattice t h => ⟨lattice, rfl, h⟩
  | succ n ih =>
    intro lattice t h
    obtain ⟨L1, h1, hp1⟩ := timeStep_inv kT J B mu siteRand acceptRand lattice t h
    obtain ⟨L', h', hp'⟩ := ih L1 (t + 1) hp1
    refine ⟨L', ?_, hp'⟩
    unfold stepsFrom
    rw [h1]
    exact h'

end Rectangular2D

/-! Bind helpers, magnetization bounds, and the loop specification. -/

namespace Rectangular2D

theorem ok_bind {α β : Type} (a : α) (f : α → Except String β) :
    (Except.ok a >>= f : Except String β) = f a := rfl

theorem error_bind {α β : Type} (e : String) (f : α → Except String β) :
    ((Except.error e : Except String α) >>= f : Except String β) = .error e := rfl

theorem timeStep_ok (rows cols : ℕ) (kT J B mu : ℚ) (siteRand : ℕ → ℕ × ℕ)
    (acceptRand : ℕ → ℝ) (lattice : Lattice) (t : ℕ) :
    ∃ L', timeStep rows cols kT J B mu siteRand acceptRand lattice t = .ok L' := by
  unfold timeStep
  obtain ⟨L', h', -⟩ := foldlM_except_inv (fun _ => True)
    (fun L i =>
      let k := t * (rows * cols) + i
      checkFlip (siteRand k).1 (siteRand k).2 L kT J B mu (acceptRand k))
    (fun L i _ => by
      rcases checkFlip_ok_cases (siteRand (t * (rows * cols) + i)).1
        (siteRand (t * (rows * cols) + i)).2 L kT J B mu
        (acceptRand (t * (rows * cols) + i)) with h | h
      · exact ⟨_, h, trivial⟩
      · exact ⟨_, h, trivial⟩)
    (List.range (rows * cols)) lattice trivial
  exact ⟨L', h'⟩

theorem sum_abs_le_length {l : List ℤ} (h : ∀ x ∈ l, x = 1 ∨ x = -1) :
    |l.sum| ≤ (l.length : ℤ) := by
  induction l with
  | nil => simp
  | cons a l ih =>
    simp only [List.sum_cons, List.length_cons]
    have ha : |a| ≤ 1 := by
      rcases h a (List.mem_cons_self a l) with h1 | h1 <;> simp [h1]
    have hl := ih fun x hx => h x (List.mem_cons_of_mem a hx)
    calc |a + l.sum| ≤ |a| + |l.sum| := abs_add _ _
    _ ≤ 1 + (l.length : ℤ) := add_le_add ha hl
    _ = ((l.length + 1 : ℕ) : ℤ) := by push_cast; ring

theorem magnetization_abs_le {rows cols : ℕ} {lattice : Lattice}
    (hwf : wellFormed rows cols lattice) (hs : spinsValid lattice) :
    |magnetization lattice| ≤ ((rows * cols : ℕ) : ℤ) := by
  obtain ⟨hlen, hrows⟩ := hwf
  subst hlen
  unfold magnetization
  induction lattice with
  | nil => simp
  | cons r L ih =>
    simp only [List.map_cons, List.sum_cons, List.length_cons]
    have hr : |r.sum| ≤ (cols : ℤ) := by
      have := sum_abs_le_length (hs r (List.mem_cons_self r L))
      rwa [hrows r (List.mem_cons_self r L)] at this
    have hL : |(L.map List.sum).sum| ≤ ((L.length * cols : ℕ) : ℤ) :=
      ih (fun x hx => hs x (List.mem_cons_of_mem r hx))
        (fun x hx => hrows x (List.mem_cons_of_mem r hx))
    calc |r.sum + (L.map List.sum).sum|
        ≤ |r.sum| + |(L.map List.sum).sum| := abs_add _ _
    _ ≤ (cols : ℤ) + ((L.length * cols : ℕ) : ℤ) := add_le_add hr hL
    _ = (((L.length + 1) * cols : ℕ) : ℤ) := by push_cast; ring

theorem initializeLattice_ok {rows cols : ℕ} {prob : ℚ} {rand : ℕ → ℚ}
    (h0 : 0 ≤ prob) (h1 : prob ≤ 1) :
    initializeLattice rows cols prob rand =
      .ok ((List.range rows).map fun r =>
        (List.range cols).map fun c =>
          if rand (r * cols + c) < prob then 1 else -1) := by
  unfold initializeLattice
  rw [if_neg]
  push_neg
  exact ⟨h0, h1⟩

theorem initializeLattice_wellFormed {rows cols : ℕ} {prob : ℚ}
    {rand : ℕ → ℚ} {L : Lattice}
    (h : initializeLattice rows cols prob rand = .ok L) :
    wellFormed rows cols L ∧ spinsValid L := by
  unfold initializeLattice at h
  by_cases hp : prob < 0 ∨ 1 < prob
  · rw [if_pos hp] at h; exact absurd h (by simp)
  · rw [if_neg hp] at h
    obtain rfl : _ = L := Except.ok.inj h
    refine ⟨⟨by simp, ?_⟩, ?_⟩
    · intro r hr
      obtain ⟨a, -, rfl⟩ := List.mem_map.mp hr
      simp
    · intro r hr x hx
      obtain ⟨a, -, rfl⟩ := List.mem_map.mp hr
      obtain ⟨c, -, rfl⟩ := List.mem_map.mp hx
      by_cases hc : rand (a * cols + c) < prob
      · left; rw [if_pos hc]
      · right; rw [if_neg hc]

end Rectangular2D

namespace Rectangular2D

theorem simLoop_spec (rows cols : ℕ) (kT J B mu : ℚ) (siteRand : ℕ → ℕ × ℕ)
    (acceptRand : ℕ → ℝ) :
    ∀ (fuel : ℕ) (L : Lattice) (t : ℕ),
      ∃ (n : ℕ) (Ln : Lattice),
        n ≤ fuel ∧
        stepsFrom rows cols kT J B mu siteRand acceptRand L t n = .ok Ln ∧
        (∀ m Lm, 0 < m → m < n →
          stepsFrom rows cols kT J B mu siteRand acceptRand L t m = .ok Lm →
          ¬ saturatedQ rows cols Lm) ∧
        (n < fuel → saturatedQ rows cols Ln) ∧
        simLoop rows cols kT J B mu siteRand acceptRand L t fuel = .ok (Ln, t + n) := by
  intro fuel
  induction fuel with
  | zero =>
    intro L t
    refine ⟨0, L, Nat.le_refl 0, rfl, ?_, ?_, rfl⟩
    · intro m Lm hm hm'
      exact absurd hm' (Nat.not_lt_zero m)
    · intro h
      exact absurd h (lt_irrefl 0)
  | succ fuel ih =>
    intro L t
    obtain ⟨L1, hts⟩ := timeStep_ok rows cols kT J B mu siteRand acceptRand L t
    by_cases hsat : saturatedQ rows cols L1
    · refine ⟨1, L1, (by omega : 1 ≤ fuel + 1), ?_, ?_, fun _ => hsat, ?_⟩
      · show stepsFrom rows cols kT J B mu siteRand acceptRand L t 1 = .ok L1
        simp only [stepsFrom]
        rw [hts, ok_bind]
      · intro m Lm hm hm'
        omega
      · simp only [simLoop]
        rw [hts, ok_bind, if_pos hsat]
    · obtain ⟨n', Ln, hle, hsteps, hinter, hsat', hloop⟩ := ih L1 (t + 1)
      refine ⟨n' + 1, Ln, Nat.succ_le_succ hle, ?_, ?_, ?_, ?_⟩
      · simp only [stepsFrom]
        rw [hts, ok_bind]
        exact hsteps
      · intro m Lm hm hm' hstep
        match m, hm with
        | m'' + 1, _ =>
          simp only [stepsFrom] at hstep
          rw [hts, ok_bind] at hstep
          match m'' with
          | 0 =>
            obtain rfl : L1 = Lm := Except.ok.inj hstep
            exact hsat
          | m3 + 1 =>
            exact hinter (m3 + 1) Lm (Nat.succ_pos m3) (by omega) hstep
      · intro h
        exact hsat' (by omega)
      · simp only [simLoop]
        rw [hts, ok_bind, if_neg hsat]
        have harith : t + (n' + 1) = t + 1 + n' := by omega
        rw [harith]
        exact hloop

end Rectangular2D

namespace Rectangular2D

theorem simulate_eq_of {rows cols : ℕ} {prob kT J B mu : ℚ} {tmax : ℕ}
    {initRand : ℕ → ℚ} {siteRand : ℕ → ℕ × ℕ} {acceptRand : ℕ → ℝ}
    {L0 Ln : Lattice} {n : ℕ}
    (hinit : initializeLattice rows cols prob initRand = .ok L0)
    (hloop : simLoop rows cols kT J B mu siteRand acceptRand L0 0 tmax = .ok (Ln, n)) :
    simulate rows cols prob kT J B mu tmax initRand siteRand acceptRand =
      .ok ((magnetization Ln : ℚ) / ((rows * cols : ℕ) : ℚ), Ln) := by
  simp only [simulate]
  rw [hinit]
  simp only [ok_bind]
  rw [hloop]
  simp only [ok_bind]

theorem simulate_run_aux (rows cols : ℕ) (prob kT J B mu : ℚ) (tmax : ℕ)
    (initRand : ℕ → ℚ) (siteRand : ℕ → ℕ × ℕ) (acceptRand : ℕ → ℝ)
    (hp0 : 0 ≤ prob) (hp1 : prob ≤ 1) :
    ∃ (L0 : Lattice) (n : ℕ) (Ln : Lattice),
      initializeLattice rows cols prob initRand = .ok L0 ∧
      n ≤ tmax ∧
      stepsFrom rows cols kT J B mu siteRand acceptRand L0 0 n = .ok Ln ∧
      (∀ m Lm, 0 < m → m < n →
        stepsFrom rows cols kT J B mu siteRand acceptRand L0 0 m = .ok Lm →
        ¬ saturatedQ rows cols Lm) ∧
      (n < tmax → saturatedQ rows cols Ln) ∧
      wellFormed rows cols Ln ∧ spinsValid Ln ∧
      simulate rows cols prob kT J B mu tmax initRand siteRand acceptRand =
        .ok ((magnetization Ln : ℚ) / ((rows * cols : ℕ) : ℚ), Ln) := by
  have hinit := @initializeLattice_ok rows cols prob initRand hp0 hp1
  obtain ⟨hwf0, hs0⟩ := initializeLattice_wellFormed hinit
  obtain ⟨n, Ln, hle, hsteps, hinter, hsat, hloop⟩ :=
    simLoop_spec rows cols kT J B mu siteRand acceptRand tmax _ 0
  obtain ⟨Ln', hsteps', hwf', hs'⟩ :=
    stepsFrom_inv kT J B mu siteRand acceptRand n _ 0 ⟨hwf0, hs0⟩
  obtain rfl : Ln = Ln' := Except.ok.inj (hsteps.symm.trans hsteps')
  rw [Nat.zero_add] at hloop
  exact ⟨_, n, Ln, hinit, hle, hsteps, hinter, hsat, hwf', hs',
    simulate_eq_of hinit hloop⟩

theorem normalized_mag_bounds {rows cols : ℕ} {lattice : Lattice}
    (hwf : wellFormed rows cols lattice) (hs : spinsValid lattice)
    (hN : rows * cols ≠ 0) :
    -1 ≤ (magnetization lattice : ℚ) / ((rows * cols : ℕ) : ℚ) ∧
      (magnetization lattice : ℚ) / ((rows * cols : ℕ) : ℚ) ≤ 1 := by
  have habs := magnetization_abs_le hwf hs
  have hNpos : (0 : ℚ) < ((rows * cols : ℕ) : ℚ) := by
    exact_mod_cast Nat.pos_of_ne_zero hN
  have habsQ : |(magnetization lattice : ℚ)| ≤ ((rows * cols : ℕ) : ℚ) := by
    rw [← Int.cast_abs]
    exact_mod_cast habs
  have : |(magnetization lattice : ℚ) / ((rows * cols : ℕ) : ℚ)| ≤ 1 := by
    rw [abs_div, abs_of_pos hNpos]
    exact (div_le_one hNpos).mpr habsQ
  exact abs_le.mp this

end Rectangular2D

/-! Periodic index arithmetic and the flip round trip. -/

namespace Rectangular2D

theorem wrapPred_eq {i n : ℕ} (hi : i < n) : wrapPred i n = (i + n - 1) % n := by
  have hn : 0 < n := by omega
  unfold wrapPred
  match i with
  | 0 =>
    have h1 : ((0 : ℕ) : ℤ) - 1 = -1 := by norm_num
    rw [h1]
    have h2 : (-1 : ℤ) % (n : ℤ) = (n : ℤ) - 1 := by
      have := @Int.add_mul_emod_self_left (-1) ((n : ℤ)) 1
      rw [mul_one] at this
      rw [← this]
      apply Int.emod_eq_of_lt <;> omega
    rw [h2]
    have h3 : (0 + n - 1) % n = n - 1 := by
      have h4 : 0 + n - 1 = n - 1 := by omega
      rw [h4]
      exact Nat.mod_eq_of_lt (by omega)
    rw [h3]
    omega
  | j + 1 =>
    have h1 : ((j + 1 : ℕ) : ℤ) - 1 = (j : ℤ) := by push_cast; ring
    rw [h1]
    have h2 : (j : ℤ) % (n : ℤ) = (j : ℤ) := Int.emod_eq_of_lt (by omega) (by exact_mod_cast by omega)
    rw [h2]
    have h3 : (j + 1 + n - 1) % n = j % n := by
      have : j + 1 + n - 1 = j + n := by omega
      rw [this, Nat.add_mod_right]
    rw [h3, Nat.mod_eq_of_lt (by omega)]
    omega

theorem wrapSucc_eq {i n : ℕ} (hn : 0 < n) : wrapSucc i n = (i + 1) % n := by
  unfold wrapSucc
  have h1 : ((i : ℤ) + 1) % (n : ℤ) = (((i + 1) % n : ℕ) : ℤ) := by
    push_cast
    ring_nf
  rw [h1]
  omega

theorem wellFormed_row_length {rows cols : ℕ} {lattice : Lattice}
    (hwf : wellFormed rows cols lattice) {r : ℕ} (hr : r < rows) :
    (lattice.getD r []).length = cols := by
  obtain ⟨hlen, hrows⟩ := hwf
  exact hrows _ (getD_mem (by omega))

theorem predIdx_ne {i n : ℕ} (hi : i < n) (hn : 2 ≤ n) :
    (i + n - 1) % n ≠ i := by
  match i with
  | 0 =>
    rw [Nat.mod_eq_of_lt (by omega)]
    omega
  | j + 1 =>
    have h1 : j + 1 + n - 1 = j + n := by omega
    rw [h1, Nat.add_mod_right, Nat.mod_eq_of_lt (by omega)]
    omega

theorem succIdx_ne {i n : ℕ} (hi : i < n) (hn : 2 ≤ n) :
    (i + 1) % n ≠ i := by
  by_cases h : i + 1 < n
  · rw [Nat.mod_eq_of_lt h]; omega
  · have h1 : i + 1 = n := by omega
    rw [h1, Nat.mod_self]
    omega

theorem flipSpin_flipSpin {rows cols : ℕ} {lattice : Lattice} {row col : ℕ}
    (hwf : wellFormed rows cols lattice) (hrow : row < rows) (hcol : col < cols) :
    flipSpin (flipSpin lattice row col) row col = lattice := by
  have hlen : row < lattice.length := by rw [hwf.1]; exact hrow
  have hclen : col < (lattice.getD row []).length := by
    rw [wellFormed_row_length hwf hrow]; exact hcol
  unfold flipSpin
  rw [getSpin_setSpin_self hlen hclen]
  unfold setSpin
  rw [getD_set_self hlen, List.set_set, List.set_set]
  have hv : -1 * (-1 * getSpin lattice row col) = getSpin lattice row col := by ring
  rw [hv]
  show lattice.set row ((lattice.getD row []).set col ((lattice.getD row []).getD col 0)) = lattice
  rw [set_getD_self hclen, set_getD_self hlen]

theorem getSpin_flipSpin_center {rows cols : ℕ} {lattice : Lattice} {row col : ℕ}
    (hwf : wellFormed rows cols lattice) (hrow : row < rows) (hcol : col < cols) :
    getSpin (flipSpin lattice row col) row col = -getSpin lattice row col := by
  have hlen : row < lattice.length := by rw [hwf.1]; exact hrow
  have hclen : col < (lattice.getD row []).length := by
    rw [wellFormed_row_length hwf hrow]; exact hcol
  unfold flipSpin
  rw [getSpin_setSpin_self hlen hclen]
  ring

end Rectangular2D

namespace Rectangular2D

theorem getSpin_flipSpin_ne {lattice : Lattice} {row col r c : ℕ}
    (h : ¬(r = row ∧ c = col)) :
    getSpin (flipSpin lattice row col) r c = getSpin lattice r c := by
  unfold flipSpin
  exact getSpin_setSpin_ne h

theorem checkEnergyDiff_flipSpin_neg {rows cols : ℕ} {lattice : Lattice}
    {row col : ℕ} (temp J B mu : ℚ)
    (hwf : wellFormed rows cols lattice) (hrow : row < rows) (hcol : col < cols)
    (hr2 : 2 ≤ rows) (hc2 : 2 ≤ cols) :
    checkEnergyDiff row col (flipSpin lattice row col) temp J B mu
      = -(checkEnergyDiff row col lattice temp J B mu) := by
  have hL1 : (flipSpin lattice row col).length = rows := by
    unfold flipSpin
    rw [length_setSpin, hwf.1]
  have hC1 : ((flipSpin lattice row col).getD 0 []).length = cols :=
    wellFormed_row_length (wellFormed_flipSpin hwf row col) (by omega)
  have hC0 : (lattice.getD 0 []).length = cols :=
    wellFormed_row_length hwf (by omega)
  have e0 : getSpin (flipSpin lattice row col) row col = -getSpin lattice row col :=
    getSpin_flipSpin_center hwf hrow hcol
  have e1 : getSpin (flipSpin lattice row col) ((row + rows - 1) % rows) col
      = getSpin lattice ((row + rows - 1) % rows) col :=
    getSpin_flipSpin_ne fun hh => predIdx_ne hrow hr2 hh.1
  have e2 : getSpin (flipSpin lattice row col) row ((col + 1) % cols)
      = getSpin lattice row ((col + 1) % cols) :=
    getSpin_flipSpin_ne fun hh => succIdx_ne hcol hc2 hh.2
  have e3 : getSpin (flipSpin lattice row col) ((row + 1) % rows) col
      = getSpin lattice ((row + 1) % rows) col :=
    getSpin_flipSpin_ne fun hh => succIdx_ne hrow hr2 hh.1
  have e4 : getSpin (flipSpin lattice row col) row ((col + cols - 1) % cols)
      = getSpin lattice row ((col + cols - 1) % cols) :=
    getSpin_flipSpin_ne fun hh => predIdx_ne hcol hc2 hh.2
  simp only [checkEnergyDiff]
  rw [hL1, hC1, hwf.1, hC0, e0, e1, e2, e3, e4]
  push_cast
  ring

end Rectangular2D

namespace Rectangular2D

theorem exp_neg_eight_lt_half : Real.exp (-8 : ℝ) < 1 / 2 := by
  have h9 : (9 : ℝ) ≤ Real.exp 8 := by
    have := Real.add_one_le_exp (8 : ℝ)
    linarith
  rw [Real.exp_neg]
  have hpos : (0 : ℝ) < 9 := by norm_num
  have : (Real.exp 8)⁻¹ ≤ (9 : ℝ)⁻¹ := by
    apply inv_anti₀ hpos h9
  calc (Real.exp 8)⁻¹ ≤ (9 : ℝ)⁻¹ := this
  _ < 1 / 2 := by norm_num

theorem sum_const {l : List ℤ} {s : ℤ} (h : ∀ x ∈ l, x = s) :
    l.sum = l.length * s := by
  induction l with
  | nil => simp
  | cons a l ih =>
    simp only [List.sum_cons, List.length_cons]
    rw [h a (List.mem_cons_self a l), ih fun x hx => h x (List.mem_cons_of_mem a hx)]
    push_cast
    ring

theorem magnetization_const {rows cols : ℕ} {lattice : Lattice} {s : ℤ}
    (hwf : wellFormed rows cols lattice) (h : ∀ r ∈ lattice, ∀ x ∈ r, x = s) :
    magnetization lattice = ((rows * cols : ℕ) : ℤ) * s := by
  obtain ⟨hlen, hrows⟩ := hwf
  subst hlen
  unfold magnetization
  induction lattice with
  | nil => simp
  | cons r L ih =>
    simp only [List.map_cons, List.sum_cons, List.length_cons]
    have h1 : r.sum = (cols : ℤ) * s := by
      rw [sum_const (h r (List.mem_cons_self r L)),
        hrows r (List.mem_cons_self r L)]
    have h2 : (L.map List.sum).sum = ((L.length * cols : ℕ) : ℤ) * s :=
      ih (fun x hx => h x (List.mem_cons_of_mem r hx))
        (fun x hx => hrows x (List.mem_cons_of_mem r hx))
    rw [h1, h2]
    push_cast
    ring

end Rectangular2D

/-! Run-list construction and result collection of the sweep. -/

namespace MagnetizationDistribution

open Rectangular2D

theorem foldl_append_replicate (samples : ℕ) (kTs : List ℚ) :
    ∀ init : List ℚ,
      kTs.foldl (fun acc t => acc ++ List.replicate samples t) init
        = init ++ (kTs.map (List.replicate samples)).flatten := by
  induction kTs with
  | nil => intro init; simp
  | cons t kTs ih =>
    intro init
    simp only [List.foldl_cons, List.map_cons, List.flatten_cons]
    rw [ih]
    simp [List.append_assoc]

theorem join_replicate_length (samples : ℕ) (kTs : List ℚ) :
    ((kTs.map (List.replicate samples)).flatten).length = kTs.length * samples := by
  induction kTs with
  | nil => simp
  | cons t kTs ih =>
    simp only [List.map_cons, List.flatten_cons, List.length_append,
      List.length_replicate, List.length_cons, ih]
    ring

theorem join_replicate_getD (samples : ℕ) (kTs : List ℚ) :
    ∀ i j, i < kTs.length → j < samples →
      ((kTs.map (List.replicate samples)).flatten).getD (i * samples + j) 0
        = kTs.getD i 0 := by
  induction kTs with
  | nil => intro i j hi hj; exact absurd hi (Nat.not_lt_zero i)
  | cons t kTs ih =>
    intro i j hi hj
    simp only [List.map_cons, List.flatten_cons]
    match i with
    | 0 =>
      rw [Nat.zero_mul, Nat.zero_add]
      rw [List.getD_eq_getElem?_getD, List.getElem?_append_left (by simpa using hj)]
      rw [List.getElem?_replicate, if_pos hj]
      rfl
    | i' + 1 =>
      have hoff : (i' + 1) * samples + j = samples + (i' * samples + j) := by ring
      rw [hoff]
      rw [List.getD_eq_getElem?_getD,
        List.getElem?_append_right (by simp),
        List.length_replicate, Nat.add_sub_cancel_left,
        ← List.getD_eq_getElem?_getD]
      have hi' : i' < kTs.length := by
        simp only [List.length_cons] at hi
        omega
      have := ih i' j hi' hj
      rw [this]
      rfl

theorem getD_map_runArgs (f : ℚ → RunArgs) (l : List ℚ) (k : ℕ) (d : RunArgs)
    (hk : k < l.length) : (l.map f).getD k d = f (l.getD k 0) := by
  rw [List.getD_eq_getElem?_getD, List.getElem?_map,
    List.getElem?_eq_getElem hk, List.getD_eq_getElem?_getD,
    List.getElem?_eq_getElem hk]
  rfl

theorem mapM_append_error {α β : Type} (f : α → Except String β)
    (pre : List α) (a : α) (post : List α) (e : String)
    (hpre : ∀ b ∈ pre, ∃ y, f b = .ok y) (ha : f a = .error e) :
    (pre ++ a :: post).mapM f = .error e := by
  induction pre with
  | nil =>
    simp only [List.nil_append]
    rw [List.mapM_cons, ha]
    rfl
  | cons b pre ih =>
    obtain ⟨y, hy⟩ := hpre b (List.mem_cons_self b pre)
    simp only [List.cons_append]
    rw [List.mapM_cons, hy, ok_bind,
      ih fun c hc => hpre c (List.mem_cons_of_mem b hc)]
    rfl

end MagnetizationDistribution

/-! Concrete evaluations used by counterexamples and witnesses. -/

namespace Rectangular2D

theorem initializeLattice_1x1_eval :
    initializeLattice 1 1 1 (fun _ => (0 : ℚ)) = .ok [[1]] := by
  have hr : List.range 1 = [0] := rfl
  norm_num [initializeLattice, hr]

theorem simulate_1x1_kT0_tmax0_eval :
    simulate 1 1 1 0 1 0 1 0 (fun _ => (0 : ℚ)) (fun _ => (0, 0)) (fun _ => (0 : ℝ))
      = .ok (1, [[1]]) := by
  have hloop : simLoop 1 1 0 1 0 1 (fun _ => (0, 0)) (fun _ => (0 : ℝ)) [[1]] 0 0
      = .ok ([[1]], 0) := rfl
  rw [simulate_eq_of initializeLattice_1x1_eval hloop]
  norm_num [magnetization]

theorem simulate_1x1_kT1_tmax0_eval :
    simulate 1 1 1 1 1 0 1 0 (fun _ => (0 : ℚ)) (fun _ => (0, 0)) (fun _ => (0 : ℝ))
      = .ok (1, [[1]]) := by
  have hloop : simLoop 1 1 1 1 0 1 (fun _ => (0, 0)) (fun _ => (0 : ℝ)) [[1]] 0 0
      = .ok ([[1]], 0) := rfl
  rw [simulate_eq_of initializeLattice_1x1_eval hloop]
  norm_num [magnetization]

end Rectangular2D

/-! Claim theorems. -/

namespace Rectangular2D

/-- C1 (code bug evidence): `checkFlip` does not use the supplied `J`, `B`,
`mu` when computing the energy difference — it calls
`checkEnergyDiff(row, col, lattice, temp)` with the defaults `J=1, B=0,
mu=1`.  On the all-`+1` 2x2 lattice with supplied `J = -1` the energy
delta demanded by the claim is `-8 ≤ 0`, so the Metropolis rule of the
claim flips the spin unconditionally; the code instead computes `+8`,
compares the draw `1/2` against `exp(-8) < 1/2`, and leaves the lattice
unchanged. -/
theorem c1_checkFlip_ignores_params :
    checkEnergyDiff 0 0 [[1, 1], [1, 1]] 1 (-1) 0 1 = -8 ∧
    checkFlip 0 0 [[1, 1], [1, 1]] 1 (-1) 0 1 (1 / 2) = .ok [[1, 1], [1, 1]] := by
  constructor
  · norm_num [checkEnergyDiff, getSpin]
  · have h8 : checkEnergyDiff 0 0 [[1, 1], [1, 1]] 1 = 8 := by
      norm_num [checkEnergyDiff, getSpin]
    simp only [checkFlip]
    rw [h8]
    rw [if_neg (by norm_num), if_neg (by norm_num : ¬(1 : ℚ) = 0)]
    have hcast : ((-8 / 1 : ℚ) : ℝ) = (-8 : ℝ) := by norm_num
    rw [hcast, if_neg (not_lt.mpr exp_neg_eight_lt_half.le)]

/-- C2: for a well-formed `rows × cols` lattice and an in-range site,
`checkEnergyDiff` equals
`2·J·s(row,col)·(s(row-1,col) + s(row,col+1) + s(row+1,col) + s(row,col-1))
 + 2·B·mu·s(row,col)` where the neighbour indices wrap modularly
(`wrapPred`/`wrapSucc` are integer `mod` as the spec words it). -/
theorem c2_checkEnergyDiff_formula (rows cols row col : ℕ) (lattice : Lattice)
    (temp J B mu : ℚ) (hwf : wellFormed rows cols lattice)
    (hr : 0 < rows) (hc : 0 < cols) (hrow : row < rows) (hcol : col < cols) :
    checkEnergyDiff row col lattice temp J B mu =
      2 * J * (getSpin lattice row col : ℚ) *
          ((getSpin lattice (wrapPred row rows) col : ℚ)
            + (getSpin lattice row (wrapSucc col cols) : ℚ)
            + (getSpin lattice (wrapSucc row rows) col : ℚ)
            + (getSpin lattice row (wrapPred col cols) : ℚ))
        + 2 * B * mu * (getSpin lattice row col : ℚ) := by
  simp only [checkEnergyDiff]
  rw [hwf.1, wellFormed_row_length hwf hr]
  rw [wrapPred_eq hrow, wrapSucc_eq hc, wrapSucc_eq hr, wrapPred_eq hcol]

/-- C2 witness: on the 2x2 lattice `[[1,-1],[1,1]]` at site `(0,0)` with
`J=1, B=2, mu=3` the theorem applies, and the value matches the
hand-computed reference `2·1·1·(1 + (-1) + 1 + (-1)) + 2·2·3·1 = 12`. -/
theorem c2_witness :
    (checkEnergyDiff 0 0 [[1, -1], [1, 1]] 5 1 2 3 =
      2 * 1 * (getSpin [[1, -1], [1, 1]] 0 0 : ℚ) *
          ((getSpin [[1, -1], [1, 1]] (wrapPred 0 2) 0 : ℚ)
            + (getSpin [[1, -1], [1, 1]] 0 (wrapSucc 0 2) : ℚ)
            + (getSpin [[1, -1], [1, 1]] (wrapSucc 0 2) 0 : ℚ)
            + (getSpin [[1, -1], [1, 1]] 0 (wrapPred 0 2) : ℚ))
        + 2 * 2 * 3 * (getSpin [[1, -1], [1, 1]] 0 0 : ℚ)) ∧
    checkEnergyDiff 0 0 [[1, -1], [1, 1]] 5 1 2 3 = 12 :=
  ⟨c2_checkEnergyDiff_formula 2 2 0 0 [[1, -1], [1, 1]] 5 1 2 3
      (by unfold wellFormed; decide)
      (by norm_num) (by norm_num) (by norm_num) (by norm_num),
   by norm_num [checkEnergyDiff, getSpin]⟩

/-- C4 counterexample: the claim asserts that the energy delta computed
before the reverse flip has the same absolute value AND the same sign as
the one computed before the first flip, for every spin lattice.  On the
all-`+1` 2x2 lattice at `(0,0)` the two values are `8` and `-8` — equal
magnitude, OPPOSITE sign.  On the single-row lattice `[[1,1,1]]` (whose
vertical neighbours wrap to the site itself) the values are `8` and `0` —
even the magnitudes differ. -/
theorem c4_counterexample :
    (flipSpin [[1, 1], [1, 1]] 0 0 = [[-1, 1], [1, 1]] ∧
      checkEnergyDiff 0 0 [[1, 1], [1, 1]] 1 = 8 ∧
      checkEnergyDiff 0 0 [[-1, 1], [1, 1]] 1 = -8) ∧
    (flipSpin [[1, 1, 1]] 0 0 = [[-1, 1, 1]] ∧
      checkEnergyDiff 0 0 [[1, 1, 1]] 1 = 8 ∧
      checkEnergyDiff 0 0 [[-1, 1, 1]] 1 = 0) := by
  refine ⟨⟨?_, ?_, ?_⟩, ⟨?_, ?_, ?_⟩⟩ <;>
    norm_num [flipSpin, setSpin, getSpin, checkEnergyDiff]

/-- C4 (amended): for a lattice with at least 2 rows and 2 columns and an
in-range site, flipping the site twice restores the lattice bit-identically,
and the energy delta computed on the once-flipped lattice is the exact
NEGATION of the delta computed before the flip — equal absolute value,
opposite sign (the claim's "same sign" is wrong, and with a single row or
column even the magnitudes can differ). -/
theorem c4_flip_antisym (rows cols : ℕ) (lattice : Lattice) (row col : ℕ)
    (temp J B mu : ℚ) (hwf : wellFormed rows cols lattice)
    (hs : spinsValid lattice) (hrow : row < rows) (hcol : col < cols)
    (hr2 : 2 ≤ rows) (hc2 : 2 ≤ cols) :
    flipSpin (flipSpin lattice row col) row col = lattice ∧
    checkEnergyDiff row col (flipSpin lattice row col) temp J B mu
      = -(checkEnergyDiff row col lattice temp J B mu) ∧
    |checkEnergyDiff row col (flipSpin lattice row col) temp J B mu|
      = |checkEnergyDiff row col lattice temp J B mu| := by
  refine ⟨flipSpin_flipSpin hwf hrow hcol,
    checkEnergyDiff_flipSpin_neg temp J B mu hwf hrow hcol hr2 hc2, ?_⟩
  rw [checkEnergyDiff_flipSpin_neg temp J B mu hwf hrow hcol hr2 hc2]
  exact abs_neg _

/-- C4 witness: the amended theorem applied to the 2x2 lattice
`[[1,-1],[1,1]]` at site `(0,0)` with `J=1, B=2, mu=3`. -/
theorem c4_witness :
    flipSpin (flipSpin [[1, -1], [1, 1]] 0 0) 0 0 = [[1, -1], [1, 1]] ∧
    checkEnergyDiff 0 0 (flipSpin [[1, -1], [1, 1]] 0 0) 5 1 2 3
      = -(checkEnergyDiff 0 0 [[1, -1], [1, 1]] 5 1 2 3) ∧
    |checkEnergyDiff 0 0 (flipSpin [[1, -1], [1, 1]] 0 0) 5 1 2 3|
      = |checkEnergyDiff 0 0 [[1, -1], [1, 1]] 5 1 2 3| :=
  c4_flip_antisym 2 2 [[1, -1], [1, 1]] 0 0 5 1 2 3
    (by unfold wellFormed; decide) (by unfold spinsValid; decide)
    (by norm_num) (by norm_num) (by norm_num) (by norm_num)

/-- C10: with `kT > 0`, `checkFlip` at an in-range site of a well-formed
lattice succeeds and changes at most the cell `(row, col)`: every other
cell keeps its exact prior value, the chosen cell is unchanged or negated,
and spin validity is preserved. -/
theorem c10_checkFlip_frame (rows cols row col : ℕ) (lattice : Lattice)
    (kT J B mu : ℚ) (u : ℝ) (hwf : wellFormed rows cols lattice)
    (hrow : row < rows) (hcol : col < cols) (hk : 0 < kT) :
    ∃ L', checkFlip row col lattice kT J B mu u = .ok L' ∧
      (∀ r c, ¬(r = row ∧ c = col) → getSpin L' r c = getSpin lattice r c) ∧
      (getSpin L' row col = getSpin lattice row col ∨
        getSpin L' row col = -getSpin lattice row col) ∧
      (spinsValid lattice → spinsValid L') := by
  rcases checkFlip_ok_cases row col lattice kT J B mu u with h | h
  · exact ⟨_, h, fun r c hrc => getSpin_flipSpin_ne hrc,
      Or.inr (getSpin_flipSpin_center hwf hrow hcol),
      fun hs => spinsValid_flipSpin hs row col⟩
  · exact ⟨lattice, h, fun r c _ => rfl, Or.inl rfl, fun hs => hs⟩

/-- C10 witness: the frame theorem applied to the 2x2 lattice
`[[1,-1],[1,1]]` at site `(0,0)` with `kT = 1` and draw `0`. -/
theorem c10_witness :
    ∃ L', checkFlip 0 0 [[1, -1], [1, 1]] 1 1 0 1 0 = .ok L' ∧
      (∀ r c, ¬(r = 0 ∧ c = 0) → getSpin L' r c = getSpin [[1, -1], [1, 1]] r c) ∧
      (getSpin L' 0 0 = getSpin [[1, -1], [1, 1]] 0 0 ∨
        getSpin L' 0 0 = -getSpin [[1, -1], [1, 1]] 0 0) ∧
      (spinsValid [[1, -1], [1, 1]] → spinsValid L') :=
  c10_checkFlip_frame 2 2 0 0 [[1, -1], [1, 1]] 1 1 0 1 0
    (by unfold wellFormed; decide)
    (by norm_num) (by norm_num) (by norm_num)

end Rectangular2D

namespace Rectangular2D

/-- C3: for valid parameters, `simulate` runs some number `n ≤ tmax` of
time steps (each `timeStep` is by definition a fold of `rows * cols`
single-site `checkFlip` attempts at stream-chosen sites, sampling with
replacement); no intermediate completed step is saturated; the loop stops
short of `tmax` exactly when the absorbing test
`|M| / (rows*cols) = 1` fires after a completed step; and the result is
the signed normalized magnetization of the final lattice together with
that lattice. -/
theorem c3_simulate_steps (rows cols : ℕ) (prob kT J B mu : ℚ) (tmax : ℕ)
    (initRand : ℕ → ℚ) (siteRand : ℕ → ℕ × ℕ) (acceptRand : ℕ → ℝ)
    (hr : 0 < rows) (hc : 0 < cols) (hp0 : 0 ≤ prob) (hp1 : prob ≤ 1)
    (hk : 0 < kT) :
    ∃ (L0 : Lattice) (n : ℕ) (Ln : Lattice),
      initializeLattice rows cols prob initRand = .ok L0 ∧
      n ≤ tmax ∧
      stepsFrom rows cols kT J B mu siteRand acceptRand L0 0 n = .ok Ln ∧
      (∀ m Lm, 0 < m → m < n →
        stepsFrom rows cols kT J B mu siteRand acceptRand L0 0 m = .ok Lm →
        ¬ saturatedQ rows cols Lm) ∧
      (n < tmax → saturatedQ rows cols Ln) ∧
      simulate rows cols prob kT J B mu tmax initRand siteRand acceptRand =
        .ok ((magnetization Ln : ℚ) / ((rows * cols : ℕ) : ℚ), Ln) := by
  obtain ⟨L0, n, Ln, h1, h2, h3, h4, h5, -, -, h8⟩ :=
    simulate_run_aux rows cols prob kT J B mu tmax initRand siteRand acceptRand
      hp0 hp1
  exact ⟨L0, n, Ln, h1, h2, h3, h4, h5, h8⟩

/-- C3 witness: the theorem applied to a 1x1 run with `prob = 1`,
`kT = 1`, `tmax = 0` and constant streams. -/
theorem c3_witness :
    ∃ (L0 : Lattice) (n : ℕ) (Ln : Lattice),
      initializeLattice 1 1 1 (fun _ => (0 : ℚ)) = .ok L0 ∧
      n ≤ 0 ∧
      stepsFrom 1 1 1 1 0 1 (fun _ => (0, 0)) (fun _ => (0 : ℝ)) L0 0 n = .ok Ln ∧
      (∀ m Lm, 0 < m → m < n →
        stepsFrom 1 1 1 1 0 1 (fun _ => (0, 0)) (fun _ => (0 : ℝ)) L0 0 m = .ok Lm →
        ¬ saturatedQ 1 1 Lm) ∧
      (n < 0 → saturatedQ 1 1 Ln) ∧
      simulate 1 1 1 1 1 0 1 0 (fun _ => (0 : ℚ)) (fun _ => (0, 0)) (fun _ => (0 : ℝ)) =
        .ok ((magnetization Ln : ℚ) / ((1 * 1 : ℕ) : ℚ), Ln) :=
  c3_simulate_steps 1 1 1 1 1 0 1 0 (fun _ => (0 : ℚ)) (fun _ => (0, 0))
    (fun _ => (0 : ℝ)) (by norm_num) (by norm_num) (by norm_num) (by norm_num)
    (by norm_num)

/-- C8: for valid parameters and ANY random streams, `simulate` succeeds
and the returned normalized magnetization lies in `[-1, 1]`. -/
theorem c8_mag_in_range (rows cols : ℕ) (prob kT J B mu : ℚ) (tmax : ℕ)
    (initRand : ℕ → ℚ) (siteRand : ℕ → ℕ × ℕ) (acceptRand : ℕ → ℝ)
    (hr : 0 < rows) (hc : 0 < cols) (hp0 : 0 ≤ prob) (hp1 : prob ≤ 1)
    (hk : 0 < kT) :
    ∃ (m : ℚ) (L : Lattice),
      simulate rows cols prob kT J B mu tmax initRand siteRand acceptRand =
        .ok (m, L) ∧ -1 ≤ m ∧ m ≤ 1 := by
  obtain ⟨L0, n, Ln, -, -, -, -, -, hwf, hs, hsim⟩ :=
    simulate_run_aux rows cols prob kT J B mu tmax initRand siteRand acceptRand
      hp0 hp1
  have hN : rows * cols ≠ 0 :=
    Nat.mul_ne_zero (Nat.pos_iff_ne_zero.mp hr) (Nat.pos_iff_ne_zero.mp hc)
  obtain ⟨hb1, hb2⟩ := normalized_mag_bounds hwf hs hN
  exact ⟨_, Ln, hsim, hb1, hb2⟩

/-- C8 witness: the theorem applied to a 1x1 run with `prob = 1`,
`kT = 1`, `tmax = 0` and constant streams. -/
theorem c8_witness :
    ∃ (m : ℚ) (L : Lattice),
      simulate 1 1 1 1 1 0 1 0 (fun _ => (0 : ℚ)) (fun _ => (0, 0))
          (fun _ => (0 : ℝ)) = .ok (m, L) ∧ -1 ≤ m ∧ m ≤ 1 :=
  c8_mag_in_range 1 1 1 1 1 0 1 0 (fun _ => (0 : ℚ)) (fun _ => (0, 0))
    (fun _ => (0 : ℝ)) (by norm_num) (by norm_num) (by norm_num) (by norm_num)
    (by norm_num)

/-- C9: with draws in `[0, 1)`, `initialize` with `prob = 1` yields the
all-`+1` lattice (magnetization `rows*cols`, normalized `1`) and with
`prob = 0` the all-`-1` lattice (magnetization `-(rows*cols)`, normalized
`-1`). -/
theorem c9_initialize_extremes (rows cols : ℕ) (rand : ℕ → ℚ)
    (hr : 0 < rows) (hc : 0 < cols)
    (hrand : ∀ i, 0 ≤ rand i ∧ rand i < 1) :
    (∃ L, initializeLattice rows cols 1 rand = .ok L ∧
      (∀ r ∈ L, ∀ x ∈ r, x = (1 : ℤ)) ∧
      magnetization L = ((rows * cols : ℕ) : ℤ) ∧
      (magnetization L : ℚ) / ((rows * cols : ℕ) : ℚ) = 1) ∧
    (∃ L, initializeLattice rows cols 0 rand = .ok L ∧
      (∀ r ∈ L, ∀ x ∈ r, x = (-1 : ℤ)) ∧
      magnetization L = -((rows * cols : ℕ) : ℤ) ∧
      (magnetization L : ℚ) / ((rows * cols : ℕ) : ℚ) = -1) := by
  have hN : ((rows * cols : ℕ) : ℚ) ≠ 0 := by
    have : rows * cols ≠ 0 :=
      Nat.mul_ne_zero (Nat.pos_iff_ne_zero.mp hr) (Nat.pos_iff_ne_zero.mp hc)
    exact_mod_cast this
  constructor
  · have hinit := @initializeLattice_ok rows cols 1 rand (by norm_num) (by norm_num)
    obtain ⟨hwf, -⟩ := initializeLattice_wellFormed hinit
    have hcells : ∀ r ∈ ((List.range rows).map fun a =>
        (List.range cols).map fun c =>
          if rand (a * cols + c) < 1 then (1 : ℤ) else -1), ∀ x ∈ r, x = (1 : ℤ) := by
      intro r hr' x hx
      obtain ⟨a, -, rfl⟩ := List.mem_map.mp hr'
      obtain ⟨c, -, rfl⟩ := List.mem_map.mp hx
      rw [if_pos (hrand (a * cols + c)).2]
    have hmag := magnetization_const hwf hcells
    refine ⟨_, hinit, hcells, by rw [hmag]; ring, ?_⟩
    rw [hmag]
    push_cast
    field_simp
  · have hinit := @initializeLattice_ok rows cols 0 rand (by norm_num) (by norm_num)
    obtain ⟨hwf, -⟩ := initializeLattice_wellFormed hinit
    have hcells : ∀ r ∈ ((List.range rows).map fun a =>
        (List.range cols).map fun c =>
          if rand (a * cols + c) < 0 then (1 : ℤ) else -1), ∀ x ∈ r, x = (-1 : ℤ) := by
      intro r hr' x hx
      obtain ⟨a, -, rfl⟩ := List.mem_map.mp hr'
      obtain ⟨c, -, rfl⟩ := List.mem_map.mp hx
      rw [if_neg (not_lt.mpr (hrand (a * cols + c)).1)]
    have hmag := magnetization_const hwf hcells
    refine ⟨_, hinit, hcells, by rw [hmag]; ring, ?_⟩
    rw [hmag]
    push_cast
    field_simp

/-- C9 witness: the theorem applied to a 2x2 lattice with the constant
zero draw stream. -/
theorem c9_witness :
    (∃ L, initializeLattice 2 2 1 (fun _ => (0 : ℚ)) = .ok L ∧
      (∀ r ∈ L, ∀ x ∈ r, x = (1 : ℤ)) ∧
      magnetization L = ((2 * 2 : ℕ) : ℤ) ∧
      (magnetization L : ℚ) / ((2 * 2 : ℕ) : ℚ) = 1) ∧
    (∃ L, initializeLattice 2 2 0 (fun _ => (0 : ℚ)) = .ok L ∧
      (∀ r ∈ L, ∀ x ∈ r, x = (-1 : ℤ)) ∧
      magnetization L = -((2 * 2 : ℕ) : ℤ) ∧
      (magnetization L : ℚ) / ((2 * 2 : ℕ) : ℚ) = -1) :=
  c9_initialize_extremes 2 2 (fun _ => (0 : ℚ)) (by norm_num) (by norm_num)
    (fun i => ⟨le_refl 0, by norm_num⟩)

end Rectangular2D

namespace Rectangular2D

end Rectangular2D

namespace MagnetizationDistribution

open Rectangular2D

theorem simulateParallel_good_eval :
    simulateParallel ⟨1, 1, 1, 1, 1, 0, 1, 0⟩ (fun _ => (0 : ℚ))
      (fun _ => (0, 0)) (fun _ => (0 : ℝ)) = .ok 1 := by
  simp only [simulateParallel]
  rw [simulate_1x1_kT1_tmax0_eval]
  rfl

theorem simulate_badprob_eval :
    simulate 1 1 2 1 1 0 1 0 (fun _ => (0 : ℚ)) (fun _ => (0, 0))
      (fun _ => (0 : ℝ)) = .error "ValueError" := by
  have hinit : initializeLattice 1 1 2 (fun _ => (0 : ℚ)) = .error "ValueError" := by
    norm_num [initializeLattice]
  simp only [simulate]
  rw [hinit]
  rfl

theorem simulateParallel_bad_eval :
    simulateParallel ⟨1, 1, 2, 1, 1, 0, 1, 0⟩ (fun _ => (0 : ℚ))
      (fun _ => (0, 0)) (fun _ => (0 : ℝ)) = .error "ValueError" := by
  simp only [simulateParallel]
  rw [simulate_badprob_eval]
  rfl

/-- C5 counterexample: in the sweep of two runs `[bad, good]` where the
`bad` run raises numpy's `ValueError` (initProb = 2, a genuinely possible
per-run fault; an "invalid temperature" `kT = 0` does NOT raise in this
program) and the `good` run returns magnetization `1`, the collected
result of `map_async(...).get()` is just the re-raised exception: the
`good` run's result is not reported and there is no per-run failure
marker. -/
theorem c5_counterexample :
    simulateParallel ⟨1, 1, 1, 1, 1, 0, 1, 0⟩ (fun _ => (0 : ℚ))
        (fun _ => (0, 0)) (fun _ => (0 : ℝ)) = .ok 1 ∧
    simulateParallel ⟨1, 1, 2, 1, 1, 0, 1, 0⟩ (fun _ => (0 : ℚ))
        (fun _ => (0, 0)) (fun _ => (0 : ℝ)) = .error "ValueError" ∧
    mapAsyncGet (fun args => simulateParallel args (fun _ => (0 : ℚ))
        (fun _ => (0, 0)) (fun _ => (0 : ℝ)))
      [⟨1, 1, 2, 1, 1, 0, 1, 0⟩, ⟨1, 1, 1, 1, 1, 0, 1, 0⟩]
      = .error "ValueError" := by
  refine ⟨simulateParallel_good_eval, simulateParallel_bad_eval, ?_⟩
  unfold mapAsyncGet
  rw [List.mapM_cons, simulateParallel_bad_eval]
  rfl

/-- C5 (amended): if any dispatched run raises, `map_async(...).get()`
re-raises that run's exception and the results of all other runs — even
runs that completed successfully — are lost; there is no per-run failure
marker and the sweep's result collection is aborted.  (All results are
returned, in task order, only when every run succeeds.) -/
theorem c5_sweep_error_aborts (initRand : ℕ → ℚ) (siteRand : ℕ → ℕ × ℕ)
    (acceptRand : ℕ → ℝ) (pre post : List RunArgs) (a : RunArgs) (e : String)
    (hpre : ∀ b ∈ pre, ∃ y, simulateParallel b initRand siteRand acceptRand = .ok y)
    (ha : simulateParallel a initRand siteRand acceptRand = .error e) :
    mapAsyncGet (fun args => simulateParallel args initRand siteRand acceptRand)
      (pre ++ a :: post) = .error e := by
  unfold mapAsyncGet
  exact mapM_append_error _ pre a post e hpre ha

/-- C5 witness: the amended theorem applied to the concrete sweep
`[good] ++ bad :: []`. -/
theorem c5_witness :
    mapAsyncGet (fun args => simulateParallel args (fun _ => (0 : ℚ))
        (fun _ => (0, 0)) (fun _ => (0 : ℝ)))
      ([⟨1, 1, 1, 1, 1, 0, 1, 0⟩] ++ ⟨1, 1, 2, 1, 1, 0, 1, 0⟩ :: [])
      = .error "ValueError" :=
  c5_sweep_error_aborts (fun _ => (0 : ℚ)) (fun _ => (0, 0)) (fun _ => (0 : ℝ))
    [⟨1, 1, 1, 1, 1, 0, 1, 0⟩] [] ⟨1, 1, 2, 1, 1, 0, 1, 0⟩ "ValueError"
    (by
      intro b hb
      rw [List.mem_singleton] at hb
      subst hb
      exact ⟨1, simulateParallel_good_eval⟩)
    simulateParallel_bad_eval

/-- C7: `buildRunList` over `T` temperatures with `S` samples each yields
exactly `T*S` parameter records; record `i*S + j` carries temperature
`kTs[i]` and the fixed parameters unchanged, so the `S` records of each
temperature are contiguous and the groups follow the input order. -/
theorem c7_buildRunList (kTs : List ℚ) (samples rows cols : ℕ)
    (prob J B mu : ℚ) (tmax : ℕ) :
    (buildRunList kTs samples rows cols prob J B mu tmax).length
        = kTs.length * samples ∧
    ∀ i j, i < kTs.length → j < samples →
      (buildRunList kTs samples rows cols prob J B mu tmax).getD
          (i * samples + j) ⟨0, 0, 0, 0, 0, 0, 0, 0⟩
        = ⟨rows, cols, prob, kTs.getD i 0, J, B, mu, tmax⟩ := by
  have hfold := foldl_append_replicate samples kTs []
  rw [List.nil_append] at hfold
  constructor
  · simp only [buildRunList, hfold, List.length_map, join_replicate_length]
  · intro i j hi hj
    simp only [buildRunList, hfold]
    have hlen : i * samples + j
        < ((kTs.map (List.replicate samples)).flatten).length := by
      rw [join_replicate_length]
      have h1 : i * samples + j < (i + 1) * samples := by
        calc i * samples + j < i * samples + samples := by omega
        _ = (i + 1) * samples := by ring
      have h2 : (i + 1) * samples ≤ kTs.length * samples :=
        Nat.mul_le_mul_right samples hi
      omega
    rw [getD_map_runArgs _ _ _ _ hlen, join_replicate_getD samples kTs i j hi hj]

/-- C7 witness: 3 temperatures with 5 samples each give exactly 15
records, and record `1*5 + 2` (a sample of the second temperature) keeps
the fixed parameters and carries the second temperature. -/
theorem c7_witness :
    (buildRunList [2, 3, 5] 5 30 30 (1 / 2) 1 0 1 1200).length = 15 ∧
    (buildRunList [2, 3, 5] 5 30 30 (1 / 2) 1 0 1 1200).getD (1 * 5 + 2)
        ⟨0, 0, 0, 0, 0, 0, 0, 0⟩
      = ⟨30, 30, 1 / 2, 3, 1, 0, 1, 1200⟩ :=
  ⟨by rw [(c7_buildRunList [2, 3, 5] 5 30 30 (1 / 2) 1 0 1 1200).1]; rfl,
   (c7_buildRunList [2, 3, 5] 5 30 30 (1 / 2) 1 0 1 1200).2 1 2
     (by norm_num) (by norm_num)⟩

end MagnetizationDistribution
